import Mathlib

/-!
Shallow embedding of the `promtme` prompt bot (src/config.py, src/utils.py,
src/bot.py) and verification of its specification claims.

Strings are modelled as `List Char`; machine floats (monotonic clock readings)
are modelled as `ℚ`; Python exceptions are modelled as explicit error values.
-/

namespace Promtme

/-! Configuration constants (src/config.py) -/

def MAX_MESSAGE_LENGTH : Nat := 4096

def DEEPSEEK_RETRY_ATTEMPTS : Nat := 3

def RATE_LIMIT_REQUESTS_PER_MINUTE : Nat := 5

def HISTORY_MAX_ITEMS : Nat := 5

/-- The `Category` enumeration (src/config.py). -/
inductive Category where
  | image
  | code
  | video
  | text
deriving DecidableEq, Repr

/-- The `ConversationState` enumeration (src/config.py). -/
inductive ConversationState where
  | mainMenu
  | awaitingDescription
  | promptShown
  | awaitingRefinement
deriving DecidableEq, Repr

/-! Chunker (src/utils.py, `split_into_chunks`) -/

/-- Whitespace test used by Python `str.split()` / `str.strip()`,
restricted to the ASCII whitespace characters. -/
def isWs (c : Char) : Bool := c.isWhitespace

/-- Accumulator-based tokenizer: `pySplitAux l acc` scans `l`, building the
current token (reversed) in `acc`.  Models Python `text.split()`. -/
def pySplitAux : List Char → List Char → List (List Char)
  | [], acc => if acc = [] then [] else [acc.reverse]
  | c :: cs, acc =>
    if isWs c then
      if acc = [] then pySplitAux cs [] else acc.reverse :: pySplitAux cs []
    else pySplitAux cs (c :: acc)

/-- Python `text.split()`: whitespace-delimited tokens, empties dropped. -/
def pySplit (l : List Char) : List (List Char) := pySplitAux l []

/-- Python `text.strip()`: drop leading and trailing whitespace. -/
def pyStrip (l : List Char) : List Char :=
  ((l.dropWhile isWs).reverse.dropWhile isWs).reverse

/-- Models `for i in range(0, len(part), max_length): chunks.append(part[i:i+max_length])`
(src/utils.py lines 33-34): hard character-boundary slices of size `n`. -/
def sliceBy (n : Nat) : List Char → List (List Char)
  | [] => []
  | c :: cs => ((c :: cs).take n) :: sliceBy n (cs.drop (n - 1))
termination_by l => l.length
decreasing_by
  simp only [List.length_cons, List.length_drop]
  omega

/-- Python `" ".join(current)`. -/
def joinSpace : List (List Char) → List Char
  | [] => []
  | [t] => t
  | t :: ts => t ++ ' ' :: joinSpace ts

/-- The loop state of `split_into_chunks`: accumulated `chunks`, the current
line's tokens `current`, and the tracked length `current_len`. -/
structure ChunkState where
  chunks : List (List Char)
  current : List (List Char)
  current_len : Nat

/-- One iteration of the `for part in text.split()` loop of
`split_into_chunks` (src/utils.py lines 23-39). -/
def stepPart (max_length : Nat) (st : ChunkState) (part : List Char) : ChunkState :=
  let part_len := part.length + (if st.current = [] then 0 else 1)
  if st.current_len + part_len ≤ max_length then
    ⟨st.chunks, st.current ++ [part], st.current_len + part_len⟩
  else
    let chunks1 := if st.current = [] then st.chunks else st.chunks ++ [joinSpace st.current]
    if max_length < part.length then
      ⟨chunks1 ++ sliceBy max_length part, [], 0⟩
    else
      ⟨chunks1, [part], part.length + 1⟩

/-- The trailing `if current: chunks.append(" ".join(current))`
(src/utils.py lines 40-41). -/
def finishChunks (st : ChunkState) : List (List Char) :=
  if st.current = [] then st.chunks else st.chunks ++ [joinSpace st.current]

/-- Python `split_into_chunks(text, max_length)` (src/utils.py lines 10-42). -/
def split_into_chunks (text : List Char) (max_length : Nat) : List (List Char) :=
  if text = [] then []
  else if text.length ≤ max_length then [text]
  else finishChunks ((pySplit text).foldl (stepPart max_length) ⟨[], [], 0⟩)

/-! Rate limiter (src/utils.py, `RateLimiter`) -/

/-- The `RateLimiter` state: the configured limit and the per-user timestamp
lists (`defaultdict(list)`, so absent users map to `[]`).  Clock readings
(`time.monotonic()` floats) are modelled as rationals. -/
structure RateLimiter where
  max_per_minute : Nat
  timestamps : Nat → List ℚ

/-- Method `RateLimiter.is_allowed` (src/utils.py lines 52-59).  The current clock
reading `now` is an explicit input.  Returns the decision and the updated
limiter (the purge is written back even on the `false` branch). -/
def is_allowed (rl : RateLimiter) (user_id : Nat) (now : ℚ) : Bool × RateLimiter :=
  let cutoff := now - 60
  let kept := (rl.timestamps user_id).filter (fun t => cutoff < t)
  if rl.max_per_minute ≤ kept.length then
    (false, { rl with timestamps := fun u => if u = user_id then kept else rl.timestamps u })
  else
    (true, { rl with timestamps := fun u => if u = user_id then kept ++ [now] else rl.timestamps u })

/-- Harness: run a sequence of `(user, time)` calls against a limiter and
collect the decisions returned for the calls of user `u`. -/
def resultsFor (u : Nat) : RateLimiter → List (Nat × ℚ) → List Bool
  | _, [] => []
  | rl, (v, t) :: rest =>
    let r := is_allowed rl v t
    if v = u then r.1 :: resultsFor u r.2 rest else resultsFor u r.2 rest

/-! Completion client (src/bot.py, `call_deepseek`) -/

/-- Errors observable from one attempt of `call_deepseek`: a transport
exception (of abstract type `ε`), or the `ValueError("Empty response from
DeepSeek")` raised by the empty-response check. -/
inductive DSError (ε : Type) where
  | transport (e : ε)
  | emptyResponse
deriving DecidableEq

/-- One attempt of the `try:` body (src/bot.py lines 166-178): the transport
stub yields an exception or an optional message content; empty / whitespace-only
content raises the validation error, otherwise the stripped content is
returned. -/
def attemptResult (transport : Nat → Except ε (Option (List Char))) (i : Nat) :
    Except (DSError ε) (List Char) :=
  match transport i with
  | .error e => .error (.transport e)
  | .ok none => .error .emptyResponse
  | .ok (some content) =>
    if pyStrip content = [] then .error .emptyResponse else .ok (pyStrip content)

instance {ε α : Type} [DecidableEq ε] [DecidableEq α] : DecidableEq (Except ε α) := fun x y =>
  match x, y with
  | .ok a, .ok b =>
    if h : a = b then isTrue (by rw [h]) else isFalse (by intro hh; cases hh; exact h rfl)
  | .ok _, .error _ => isFalse (by intro h; cases h)
  | .error _, .ok _ => isFalse (by intro h; cases h)
  | .error a, .error b =>
    if h : a = b then isTrue (by rw [h]) else isFalse (by intro hh; cases hh; exact h rfl)

/-- Trace of one `call_deepseek` run: the final outcome (`none` models the
`raise None` that would occur if the retry count were 0), the list of back-off
sleep durations actually performed, and the number of attempts made. -/
structure DSResult (ε : Type) where
  result : Option (Except (DSError ε) (List Char))
  sleeps : List Nat
  attempts : Nat
deriving DecidableEq

/-- The `for attempt in range(R)` retry loop of `call_deepseek`
(src/bot.py lines 165-183), over the remaining attempt indices. -/
def dsLoop (R : Nat) (transport : Nat → Except ε (Option (List Char))) :
    List Nat → Option (DSError ε) → DSResult ε
  | [], last => ⟨last.map Except.error, [], 0⟩
  | i :: rest, _ =>
    match attemptResult transport i with
    | .ok s => ⟨some (.ok s), [], 1⟩
    | .error e =>
      let r := dsLoop R transport rest (some e)
      ⟨r.result, (if i < R - 1 then [2 ^ i] else []) ++ r.sleeps, r.attempts + 1⟩

/-- Python `call_deepseek` (src/bot.py lines 158-183), with the transport call
abstracted as a stub from attempt index to outcome. -/
def call_deepseek (R : Nat) (transport : Nat → Except ε (Option (List Char))) : DSResult ε :=
  dsLoop R transport (List.range R) none

/-! Conversation controller (src/bot.py, `handle_description` and
`handle_refinement`) -/

/-- One entry of the per-user history (src/bot.py line 322). -/
structure HistoryEntry where
  category : Category
  text : List Char
deriving DecidableEq, Repr

/-- Per-user session data (`context.user_data`). -/
structure Session where
  category : Option Category
  last_prompt : Option (List Char)
  last_category : Option Category
  original_description : Option (List Char)
  history : List HistoryEntry

/-- Python `history[-n:]` for `n > 0`: the last `n` elements. -/
def lastN (n : Nat) (l : List HistoryEntry) : List HistoryEntry :=
  l.drop (l.length - n)

/-- The history entry built on success:
`{"category": category_value, "text": result[:200] + ("…" if len(result) > 200 else "")}`
(src/bot.py line 322). -/
def mkHistoryEntry (category : Category) (result : List Char) : HistoryEntry :=
  ⟨category, result.take 200 ++ (if 200 < result.length then ['…'] else [])⟩

/-- Python `handle_description` (src/bot.py lines 277-360).  Message I/O is dropped;
the completion call's outcome is a parameter (`.ok result` for a successful
`call_deepseek`, `.error` for an exception after retry exhaustion).  Returns
the next conversation state, the updated session, and the updated rate
limiter. -/
def handle_description (user_id : Nat) (now : ℚ) (rl : RateLimiter) (sess : Session)
    (msg_text : Option (List Char)) (outcome : Except ε (List Char)) :
    ConversationState × Session × RateLimiter :=
  match sess.category with
  | none => (.mainMenu, sess, rl)
  | some category =>
    let user_text := pyStrip (msg_text.getD [])
    if user_text = [] then (.awaitingDescription, sess, rl)
    else
      let adm := is_allowed rl user_id now
      if adm.1 = false then (.awaitingDescription, sess, adm.2)
      else
        match outcome with
        | .ok result =>
          let history := sess.history ++ [mkHistoryEntry category result]
          (.promptShown,
           { sess with
              history := lastN HISTORY_MAX_ITEMS history
              last_prompt := some result
              last_category := some category
              original_description := some user_text },
           adm.2)
        | .error _ => (.mainMenu, sess, adm.2)

/-- Python `handle_refinement` (src/bot.py lines 363-426).  Note the Python
truthiness test `if not last_prompt`: a stored empty string behaves like an
absent one. -/
def handle_refinement (user_id : Nat) (now : ℚ) (rl : RateLimiter) (sess : Session)
    (msg_text : Option (List Char)) (outcome : Except ε (List Char)) :
    ConversationState × Session × RateLimiter :=
  match sess.last_prompt with
  | none => (.mainMenu, sess, rl)
  | some last_prompt =>
    if last_prompt = [] then (.mainMenu, sess, rl)
    else
      let user_text := pyStrip (msg_text.getD [])
      if user_text = [] then (.awaitingRefinement, sess, rl)
      else
        let adm := is_allowed rl user_id now
        if adm.1 = false then (.awaitingRefinement, sess, adm.2)
        else
          match outcome with
          | .ok result => (.promptShown, { sess with last_prompt := some result }, adm.2)
          | .error _ => (.promptShown, sess, adm.2)

/-- Harness for the history claim: perform one successful generation per
element of `rs` through `handle_description`.  Each call is given a quiescent
rate limiter (no recorded timestamps), modelling calls spaced far enough
apart to be admitted. -/
def runGenerations (user_id : Nat) : Session → List (List Char) → Session
  | sess, [] => sess
  | sess, r :: rs =>
    runGenerations user_id
      (handle_description user_id 0 ⟨RATE_LIMIT_REQUESTS_PER_MINUTE, fun _ => []⟩
        sess (some ['d']) (Except.ok r : Except Unit (List Char))).2.1 rs

/-! Tokenizer lemmas -/

/-- A well-formed token: nonempty and whitespace-free. -/
def Tok (t : List Char) : Prop := t ≠ [] ∧ ∀ c ∈ t, isWs c = false

theorem pySplitAux_tok : ∀ (l acc : List Char), (∀ c ∈ acc, isWs c = false) →
    ∀ t ∈ pySplitAux l acc, Tok t := by
  intro l
  induction l with
  | nil =>
    intro acc hacc t ht
    simp only [pySplitAux] at ht
    by_cases h : acc = []
    · simp [h] at ht
    · simp only [h, if_false, List.mem_singleton] at ht
      subst ht
      exact ⟨by simpa using h, fun c hc => hacc c (List.mem_reverse.mp hc)⟩
  | cons c cs ih =>
    intro acc hacc t ht
    simp only [pySplitAux] at ht
    by_cases hw : isWs c
    · simp only [hw, if_true] at ht
      by_cases h : acc = []
      · simp only [h, if_true] at ht
        exact ih [] (by simp) t ht
      · simp only [h, if_false, List.mem_cons] at ht
        rcases ht with rfl | ht
        · exact ⟨by simpa using h, fun d hd => hacc d (List.mem_reverse.mp hd)⟩
        · exact ih [] (by simp) t ht
    · simp only [Bool.not_eq_true] at hw
      simp only [hw, Bool.false_eq_true, if_false] at ht
      refine ih (c :: acc) ?_ t ht
      intro d hd
      rcases List.mem_cons.mp hd with rfl | hd
      · exact hw
      · exact hacc d hd

theorem pySplit_tok : ∀ t ∈ pySplit l, Tok t :=
  pySplitAux_tok l [] (by simp)

theorem pySplitAux_no_ws_run : ∀ (t : List Char), (∀ c ∈ t, isWs c = false) →
    ∀ acc : List Char,
      pySplitAux t acc = if acc.reverse ++ t = [] then [] else [acc.reverse ++ t] := by
  intro t
  induction t with
  | nil => intro _ acc; simp [pySplitAux]
  | cons c cs ih =>
    intro h acc
    have hc : isWs c = false := h c (by simp)
    simp only [pySplitAux, hc, Bool.false_eq_true, if_false]
    rw [ih (fun d hd => h d (List.mem_cons_of_mem c hd)) (c :: acc)]
    simp

/-- A nonempty whitespace-free list is a single token of itself. -/
theorem pySplit_token (h : Tok t) : pySplit t = [t] := by
  unfold pySplit
  rw [pySplitAux_no_ws_run t h.2 []]
  simp [h.1]

theorem pySplitAux_token_head : ∀ (t : List Char), (∀ c ∈ t, isWs c = false) →
    ∀ (l acc : List Char), pySplitAux (t ++ l) acc = pySplitAux l (t.reverse ++ acc) := by
  intro t
  induction t with
  | nil => intro _ l acc; simp
  | cons c cs ih =>
    intro h l acc
    have hc : isWs c = false := h c (by simp)
    simp only [List.cons_append, pySplitAux, hc, Bool.false_eq_true, if_false, List.append_eq]
    rw [ih (fun d hd => h d (List.mem_cons_of_mem c hd)) l (c :: acc)]
    simp

/-- Splitting a space-joined token list recovers the tokens. -/
theorem pySplit_joinSpace : ∀ (ts : List (List Char)), (∀ t ∈ ts, Tok t) →
    pySplit (joinSpace ts) = ts := by
  intro ts
  induction ts with
  | nil => intro _; simp [joinSpace, pySplit, pySplitAux]
  | cons t ts ih =>
    intro h
    have ht : Tok t := h t (by simp)
    cases ts with
    | nil => simpa [joinSpace] using pySplit_token ht
    | cons t' ts' =>
      show pySplit (t ++ ' ' :: joinSpace (t' :: ts')) = t :: t' :: ts'
      unfold pySplit
      rw [pySplitAux_token_head t ht.2]
      have hrev : t.reverse ++ ([] : List Char) = t.reverse := by simp
      rw [hrev]
      have hne : t.reverse ≠ [] := by simpa using ht.1
      simp only [pySplitAux, isWs, Char.isWhitespace, if_true, hne, if_false]
      rw [List.reverse_reverse]
      exact congrArg (t :: ·) (ih (fun u hu => h u (List.mem_cons_of_mem t hu)))

theorem pySplitAux_all_ws : ∀ (l : List Char), (∀ c ∈ l, isWs c = true) →
    pySplitAux l [] = [] := by
  intro l
  induction l with
  | nil => intro _; simp [pySplitAux]
  | cons c cs ih =>
    intro h
    simp only [pySplitAux, h c (by simp), if_true]
    exact ih (fun d hd => h d (List.mem_cons_of_mem c hd))

/-- Whitespace-only text has no tokens. -/
theorem pySplit_all_ws (h : ∀ c ∈ l, isWs c = true) : pySplit l = [] :=
  pySplitAux_all_ws l h

theorem pySplitAux_mem_length : ∀ (l acc t : List Char), t ∈ pySplitAux l acc →
    t.length ≤ l.length + acc.length := by
  intro l
  induction l with
  | nil =>
    intro acc t ht
    simp only [pySplitAux] at ht
    by_cases h : acc = []
    · simp [h] at ht
    · simp only [h, if_false, List.mem_singleton] at ht
      subst ht; simp
  | cons c cs ih =>
    intro acc t ht
    simp only [pySplitAux] at ht
    by_cases hw : isWs c
    · simp only [hw, if_true] at ht
      by_cases h : acc = []
      · simp only [h, if_true] at ht
        have := ih [] t ht
        simp only [List.length_nil] at this
        simp only [List.length_cons]
        omega
      · simp only [h, if_false, List.mem_cons] at ht
        rcases ht with rfl | ht
        · simp only [List.length_reverse, List.length_cons]; omega
        · have := ih [] t ht
          simp only [List.length_nil] at this
          simp only [List.length_cons]
          omega
    · simp only [Bool.not_eq_true] at hw
      simp only [hw, Bool.false_eq_true, if_false] at ht
      have := ih (c :: acc) t ht
      simp only [List.length_cons] at this ⊢
      omega

/-- Every token is no longer than the text it came from. -/
theorem pySplit_mem_length (ht : t ∈ pySplit l) : t.length ≤ l.length := by
  have := pySplitAux_mem_length l [] t ht
  simpa using this

/-! Lemmas about sliceBy -/

theorem sliceBy_length_le (n : Nat) : ∀ (l : List Char), ∀ p ∈ sliceBy n l, p.length ≤ n := by
  intro l
  induction l using sliceBy.induct n with
  | case1 => simp [sliceBy]
  | case2 c cs ih =>
    intro p hp
    simp only [sliceBy, List.mem_cons] at hp
    rcases hp with rfl | hp
    · simp [List.length_take]
    · exact ih p hp

theorem sliceBy_flatten (n : Nat) (hn : 0 < n) : ∀ (l : List Char), (sliceBy n l).flatten = l := by
  intro l
  induction l using sliceBy.induct n with
  | case1 => simp [sliceBy]
  | case2 c cs ih =>
    have hdrop : cs.drop (n - 1) = (c :: cs).drop n := by
      obtain ⟨m, rfl⟩ := Nat.exists_eq_add_of_lt hn
      simp [List.drop_succ_cons]
    simp only [sliceBy, List.flatten_cons]
    rw [ih, hdrop]
    exact List.take_append_drop n (c :: cs)

theorem sliceBy_ne_nil (n : Nat) (hn : 0 < n) :
    ∀ (l : List Char), ∀ p ∈ sliceBy n l, p ≠ [] := by
  intro l
  induction l using sliceBy.induct n with
  | case1 => simp [sliceBy]
  | case2 c cs ih =>
    intro p hp
    simp only [sliceBy, List.mem_cons] at hp
    rcases hp with rfl | hp
    · obtain ⟨m, rfl⟩ := Nat.exists_eq_add_of_lt hn
      simp [List.take_cons]
    · exact ih p hp

theorem sliceBy_no_ws (n : Nat) : ∀ (l : List Char), (∀ c ∈ l, isWs c = false) →
    ∀ p ∈ sliceBy n l, ∀ c ∈ p, isWs c = false := by
  intro l
  induction l using sliceBy.induct n with
  | case1 => simp [sliceBy]
  | case2 c cs ih =>
    intro hl p hp d hd
    simp only [sliceBy, List.mem_cons] at hp
    rcases hp with rfl | hp
    · exact hl d (List.take_subset _ _ hd)
    · exact ih (fun e he => hl e (List.mem_cons_of_mem c (List.drop_subset _ _ he))) p hp d hd

/-- Slicing via `range(0, len, n)` makes exactly `⌈len / n⌉` slices. -/
theorem sliceBy_count (n : Nat) (hn : 0 < n) : ∀ (l : List Char), l ≠ [] →
    (sliceBy n l).length = (l.length + n - 1) / n := by
  intro l
  induction l using sliceBy.induct n with
  | case1 => intro h; exact absurd rfl h
  | case2 c cs ih =>
    intro _
    by_cases hrest : cs.drop (n - 1) = []
    · have hlen : cs.length ≤ n - 1 := by
        have := congrArg List.length hrest
        simp only [List.length_drop, List.length_nil] at this
        omega
      simp only [sliceBy, hrest, List.length_cons, List.length_nil]
      show 0 + 1 = (cs.length + 1 + n - 1) / n
      have h1 : 1 * n ≤ cs.length + 1 + n - 1 := by omega
      have h2 : cs.length + 1 + n - 1 < (1 + 1) * n := by omega
      rw [Nat.div_eq_of_lt_le h1 h2]
    · have hlen : n - 1 < cs.length := by
        by_contra hcon
        exact hrest (List.drop_eq_nil_of_le (by omega))
      have heq : cs.length + 1 + n - 1 = ((cs.drop (n - 1)).length + n - 1) + n := by
        simp only [List.length_drop]
        omega
      simp only [sliceBy, List.length_cons, ih hrest, heq]
      rw [Nat.add_div_right _ hn]

/-! Lemmas about joinSpace -/

theorem joinSpace_append_single (ts : List (List Char)) (p : List Char) (h : ts ≠ []) :
    joinSpace (ts ++ [p]) = joinSpace ts ++ ' ' :: p := by
  induction ts with
  | nil => exact absurd rfl h
  | cons t ts ih =>
    cases ts with
    | nil => simp [joinSpace]
    | cons t' ts' =>
      show joinSpace (t :: ((t' :: ts') ++ [p])) = (t ++ ' ' :: joinSpace (t' :: ts')) ++ ' ' :: p
      have : joinSpace (t :: ((t' :: ts') ++ [p])) = t ++ ' ' :: joinSpace ((t' :: ts') ++ [p]) := by
        rfl
      rw [this, ih (by simp)]
      simp

theorem joinSpace_length_append (ts : List (List Char)) (p : List Char) (h : ts ≠ []) :
    (joinSpace (ts ++ [p])).length = (joinSpace ts).length + 1 + p.length := by
  rw [joinSpace_append_single ts p h]
  simp
  omega

/-! Chunker invariant -/

/-- The shape a single token takes in the chunk stream: itself when it fits,
its hard slices when it exceeds the limit. -/
def explode (max_length : Nat) (t : List Char) : List (List Char) :=
  if t.length ≤ max_length then [t] else sliceBy max_length t

theorem flatten_map_pySplit_self (xs : List (List Char))
    (h : ∀ x ∈ xs, pySplit x = [x]) : (xs.map pySplit).flatten = xs := by
  induction xs with
  | nil => simp
  | cons x xs ih =>
    simp only [List.map_cons, List.flatten_cons, h x (by simp)]
    rw [ih (fun y hy => h y (List.mem_cons_of_mem x hy))]
    rfl

theorem flatten_map_explode_small (L : Nat) (ts : List (List Char))
    (h : ∀ t ∈ ts, t.length ≤ L) : (ts.map (explode L)).flatten = ts := by
  induction ts with
  | nil => simp
  | cons t ts ih =>
    simp only [List.map_cons, List.flatten_cons, explode, h t (by simp), if_pos]
    rw [ih (fun u hu => h u (List.mem_cons_of_mem t hu))]
    rfl

/-- Loop invariant of the `for part in text.split()` loop, after the parts
`ps` have been consumed. -/
structure ChunkInv (max_length : Nat) (ps : List (List Char)) (st : ChunkState) : Prop where
  chunks_le : ∀ c ∈ st.chunks, c.length ≤ max_length
  cur_tok : ∀ t ∈ st.current, Tok t
  cur_len : (joinSpace st.current).length ≤ st.current_len
  cur_nil : st.current = [] → st.current_len = 0
  cur_max : st.current ≠ [] → (joinSpace st.current).length ≤ max_length
  toks : (st.chunks.map pySplit).flatten ++ st.current = (ps.map (explode max_length)).flatten

theorem chunkInv_init (max_length : Nat) : ChunkInv max_length [] ⟨[], [], 0⟩ := by
  refine ⟨by simp, by simp, ?_, fun _ => rfl, by simp, by simp⟩
  simp [joinSpace]

theorem pySplit_sliceBy (max_length : Nat) (hmax : 0 < max_length) (p : List Char)
    (hp : ∀ c ∈ p, isWs c = false) :
    ((sliceBy max_length p).map pySplit).flatten = sliceBy max_length p := by
  refine flatten_map_pySplit_self _ (fun x hx => pySplit_token ?_)
  exact ⟨sliceBy_ne_nil max_length hmax p x hx, sliceBy_no_ws max_length p hp x hx⟩

theorem chunkInv_step (max_length : Nat) (hmax : 0 < max_length) (ps : List (List Char))
    (st : ChunkState) (p : List Char) (hp : Tok p) (hinv : ChunkInv max_length ps st) :
    ChunkInv max_length (ps ++ [p]) (stepPart max_length st p) := by
  have hRHS : ((ps ++ [p]).map (explode max_length)).flatten
      = (ps.map (explode max_length)).flatten ++ explode max_length p := by
    simp
  by_cases hc : st.current = []
  · have hcl : st.current_len = 0 := hinv.cur_nil hc
    simp only [stepPart, hc, if_pos, if_true]
    by_cases hfit : st.current_len + (p.length + 0) ≤ max_length
    · have hple : p.length ≤ max_length := by omega
      rw [if_pos hfit]
      have htoks := hinv.toks
      rw [hc, List.append_nil] at htoks
      refine ⟨hinv.chunks_le, ?_, ?_, by simp, ?_, ?_⟩
      · intro t ht
        simp only [List.nil_append, List.mem_singleton] at ht
        subst ht
        exact hp
      · show (joinSpace ([] ++ [p])).length ≤ st.current_len + (p.length + 0)
        simp only [List.nil_append]
        show (joinSpace [p]).length ≤ st.current_len + (p.length + 0)
        simp [joinSpace]
      · intro _
        show (joinSpace ([] ++ [p])).length ≤ max_length
        simp only [List.nil_append]
        show (joinSpace [p]).length ≤ max_length
        simpa [joinSpace] using hple
      · show (st.chunks.map pySplit).flatten ++ ([] ++ [p]) = _
        rw [hRHS, htoks, List.nil_append]
        congr 1
        simp [explode, hple]
    · rw [if_neg hfit]
      have hlong : max_length < p.length := by omega
      rw [if_pos hlong]
      refine ⟨?_, by simp, by simp [joinSpace], fun _ => rfl, by simp, ?_⟩
      · intro c hcm
        rcases List.mem_append.mp hcm with hcm | hcm
        · exact hinv.chunks_le c hcm
        · exact sliceBy_length_le max_length p c hcm
      · show ((st.chunks ++ sliceBy max_length p).map pySplit).flatten ++ [] = _
        rw [hRHS]
        simp only [List.map_append, List.flatten_append, List.append_nil]
        rw [pySplit_sliceBy max_length hmax p hp.2]
        have htoks := hinv.toks
        rw [hc, List.append_nil] at htoks
        rw [htoks]
        congr 1
        simp [explode, Nat.not_le.mpr hlong]
  · simp only [stepPart, hc, if_neg, if_false]
    by_cases hfit : st.current_len + (p.length + 1) ≤ max_length
    · rw [if_pos hfit]
      have hjlen : (joinSpace (st.current ++ [p])).length
          = (joinSpace st.current).length + 1 + p.length :=
        joinSpace_length_append st.current p hc
      refine ⟨hinv.chunks_le, ?_, ?_, by simp, ?_, ?_⟩
      · intro t ht
        rcases List.mem_append.mp ht with ht | ht
        · exact hinv.cur_tok t ht
        · rcases List.mem_singleton.mp ht with rfl
          exact hp
      · show (joinSpace (st.current ++ [p])).length ≤ st.current_len + (p.length + 1)
        rw [hjlen]
        have := hinv.cur_len
        omega
      · intro _
        show (joinSpace (st.current ++ [p])).length ≤ max_length
        rw [hjlen]
        have := hinv.cur_len
        omega
      · show (st.chunks.map pySplit).flatten ++ (st.current ++ [p]) = _
        rw [hRHS, ← List.append_assoc, hinv.toks]
        congr 1
        have hple : p.length ≤ max_length := by omega
        simp [explode, hple]
    · rw [if_neg hfit]
      have hchunks1 : ((st.chunks ++ [joinSpace st.current]).map pySplit).flatten
          = (st.chunks.map pySplit).flatten ++ st.current := by
        simp only [List.map_append, List.flatten_append, List.map_cons, List.map_nil,
          List.flatten_cons, List.flatten_nil, List.append_nil]
        rw [pySplit_joinSpace st.current hinv.cur_tok]
      have hchunks1_le : ∀ c ∈ st.chunks ++ [joinSpace st.current], c.length ≤ max_length := by
        intro c hcm
        rcases List.mem_append.mp hcm with hcm | hcm
        · exact hinv.chunks_le c hcm
        · rcases List.mem_singleton.mp hcm with rfl
          exact hinv.cur_max hc
      by_cases hlong : max_length < p.length
      · rw [if_pos hlong]
        refine ⟨?_, by simp, by simp [joinSpace], fun _ => rfl, by simp, ?_⟩
        · intro c hcm
          rcases List.mem_append.mp hcm with hcm | hcm
          · exact hchunks1_le c hcm
          · exact sliceBy_length_le max_length p c hcm
        · show (((st.chunks ++ [joinSpace st.current]) ++ sliceBy max_length p).map
              pySplit).flatten ++ [] = _
          rw [hRHS]
          simp only [List.map_append, List.map_cons, List.map_nil, List.flatten_append,
            List.flatten_cons, List.flatten_nil, List.append_nil]
          rw [pySplit_joinSpace st.current hinv.cur_tok,
            pySplit_sliceBy max_length hmax p hp.2, hinv.toks]
          congr 1
          simp [explode, Nat.not_le.mpr hlong]
      · rw [if_neg hlong]
        have hple : p.length ≤ max_length := by omega
        refine ⟨hchunks1_le, ?_, ?_, by simp, ?_, ?_⟩
        · intro t ht
          rcases List.mem_singleton.mp ht with rfl
          exact hp
        · show (joinSpace [p]).length ≤ p.length + 1
          simp [joinSpace]
        · intro _
          show (joinSpace [p]).length ≤ max_length
          simpa [joinSpace] using hple
        · show ((st.chunks ++ [joinSpace st.current]).map pySplit).flatten ++ [p] = _
          rw [hRHS, hchunks1, hinv.toks]
          congr 1
          simp [explode, hple]

theorem chunkInv_foldl (max_length : Nat) (hmax : 0 < max_length) :
    ∀ (parts ps : List (List Char)) (st : ChunkState), (∀ p ∈ parts, Tok p) →
      ChunkInv max_length ps st →
      ChunkInv max_length (ps ++ parts) (parts.foldl (stepPart max_length) st) := by
  intro parts
  induction parts with
  | nil => intro ps st _ hinv; simpa using hinv
  | cons p parts ih =>
    intro ps st hparts hinv
    have hstep := chunkInv_step max_length hmax ps st p (hparts p (by simp)) hinv
    have := ih (ps ++ [p]) (stepPart max_length st p)
      (fun q hq => hparts q (List.mem_cons_of_mem p hq)) hstep
    simpa using this

theorem finishChunks_le (max_length : Nat) (ps : List (List Char)) (st : ChunkState)
    (hinv : ChunkInv max_length ps st) : ∀ c ∈ finishChunks st, c.length ≤ max_length := by
  intro c hcm
  unfold finishChunks at hcm
  by_cases hc : st.current = []
  · rw [if_pos hc] at hcm
    exact hinv.chunks_le c hcm
  · rw [if_neg hc] at hcm
    rcases List.mem_append.mp hcm with hcm | hcm
    · exact hinv.chunks_le c hcm
    · rcases List.mem_singleton.mp hcm with rfl
      exact hinv.cur_max hc

theorem finishChunks_toks (max_length : Nat) (ps : List (List Char)) (st : ChunkState)
    (hinv : ChunkInv max_length ps st) :
    ((finishChunks st).map pySplit).flatten = (ps.map (explode max_length)).flatten := by
  unfold finishChunks
  by_cases hc : st.current = []
  · rw [if_pos hc]
    have := hinv.toks
    rw [hc, List.append_nil] at this
    exact this
  · rw [if_neg hc]
    simp only [List.map_append, List.flatten_append, List.map_cons, List.map_nil,
      List.flatten_cons, List.flatten_nil, List.append_nil]
    rw [pySplit_joinSpace st.current hinv.cur_tok]
    exact hinv.toks

/-! Rate limiter lemmas -/

theorem is_allowed_fst (rl : RateLimiter) (v : Nat) (t : ℚ) :
    ((is_allowed rl v t).1 = true ↔
      ((rl.timestamps v).filter (fun s => t - 60 < s)).length < rl.max_per_minute) := by
  by_cases h : rl.max_per_minute ≤ ((rl.timestamps v).filter (fun s => t - 60 < s)).length
  · simp only [is_allowed, h, if_pos]
    constructor
    · intro hb; exact absurd hb (by simp)
    · intro hlt; omega
  · simp only [is_allowed, h, if_neg, if_false]
    constructor
    · intro _; omega
    · intro _; trivial

theorem is_allowed_max (rl : RateLimiter) (v : Nat) (t : ℚ) :
    (is_allowed rl v t).2.max_per_minute = rl.max_per_minute := by
  by_cases h : rl.max_per_minute ≤ ((rl.timestamps v).filter (fun s => t - 60 < s)).length <;>
    simp [is_allowed, h]

theorem is_allowed_timestamps_self (rl : RateLimiter) (v : Nat) (t : ℚ) :
    (is_allowed rl v t).2.timestamps v =
      (if rl.max_per_minute ≤ ((rl.timestamps v).filter (fun s => t - 60 < s)).length
       then (rl.timestamps v).filter (fun s => t - 60 < s)
       else (rl.timestamps v).filter (fun s => t - 60 < s) ++ [t]) := by
  by_cases h : rl.max_per_minute ≤ ((rl.timestamps v).filter (fun s => t - 60 < s)).length <;>
    simp [is_allowed, h]

theorem is_allowed_timestamps_other (rl : RateLimiter) (v : Nat) (t : ℚ) (u : Nat)
    (hu : u ≠ v) : (is_allowed rl v t).2.timestamps u = rl.timestamps u := by
  by_cases h : rl.max_per_minute ≤ ((rl.timestamps v).filter (fun s => t - 60 < s)).length <;>
    simp [is_allowed, h, hu]

/-- The admission decisions reported to user `u` depend only on the limit and
on `u`'s own timestamp list. -/
theorem resultsFor_congr (u : Nat) : ∀ (calls : List (Nat × ℚ)) (rl1 rl2 : RateLimiter),
    rl1.max_per_minute = rl2.max_per_minute → rl1.timestamps u = rl2.timestamps u →
    resultsFor u rl1 calls = resultsFor u rl2 calls := by
  intro calls
  induction calls with
  | nil => intros; rfl
  | cons c rest ih =>
    obtain ⟨v, t⟩ := c
    intro rl1 rl2 hmax hts
    by_cases hv : v = u
    · subst hv
      have hfst : (is_allowed rl1 v t).1 = (is_allowed rl2 v t).1 := by
        rcases hb : (is_allowed rl2 v t).1 with _ | _
        · rcases hb1 : (is_allowed rl1 v t).1 with _ | _
          · rfl
          · exfalso
            have := (is_allowed_fst rl1 v t).mp hb1
            rw [hts, hmax] at this
            have := (is_allowed_fst rl2 v t).mpr this
            rw [hb] at this
            cases this
        · have := (is_allowed_fst rl2 v t).mp hb
          rw [← hts, ← hmax] at this
          exact (is_allowed_fst rl1 v t).mpr this
      have hnext_ts : (is_allowed rl1 v t).2.timestamps v = (is_allowed rl2 v t).2.timestamps v := by
        rw [is_allowed_timestamps_self, is_allowed_timestamps_self, hts, hmax]
      have hnext_max : (is_allowed rl1 v t).2.max_per_minute
          = (is_allowed rl2 v t).2.max_per_minute := by
        rw [is_allowed_max, is_allowed_max, hmax]
      simp only [resultsFor, if_pos]
      rw [hfst, ih (is_allowed rl1 v t).2 (is_allowed rl2 v t).2 hnext_max hnext_ts]
    · simp only [resultsFor, hv, if_neg, if_false]
      refine ih (is_allowed rl1 v t).2 (is_allowed rl2 v t).2 ?_ ?_
      · rw [is_allowed_max, is_allowed_max, hmax]
      · rw [is_allowed_timestamps_other rl1 v t u (fun h => hv h.symm),
          is_allowed_timestamps_other rl2 v t u (fun h => hv h.symm), hts]

/-- Dropping the calls of other users does not change the decisions reported
to user `u`. -/
theorem resultsFor_filter (u : Nat) : ∀ (calls : List (Nat × ℚ)) (rl : RateLimiter),
    resultsFor u rl calls = resultsFor u rl (calls.filter (fun c => c.1 == u)) := by
  intro calls
  induction calls with
  | nil => intro rl; rfl
  | cons c rest ih =>
    obtain ⟨v, t⟩ := c
    intro rl
    by_cases hv : v = u
    · have hfilter : ((v, t) :: rest).filter (fun c => c.1 == u)
          = (v, t) :: rest.filter (fun c => c.1 == u) := by
        simp [List.filter_cons, hv]
      rw [hfilter]
      simp only [resultsFor, hv, if_pos]
      rw [ih]
    · have hfilter : ((v, t) :: rest).filter (fun c => c.1 == u)
          = rest.filter (fun c => c.1 == u) := by
        simp [List.filter_cons, hv]
      rw [hfilter]
      simp only [resultsFor, hv, if_false]
      rw [ih (is_allowed rl v t).2]
      exact resultsFor_congr u _ (is_allowed rl v t).2 rl (is_allowed_max rl v t)
        (is_allowed_timestamps_other rl v t u (fun h => hv h.symm))

/-! Completion client lemmas -/

theorem dropWhile_exists_not (p : Char → Bool) : ∀ (m : List Char), m.dropWhile p ≠ [] →
    ∃ a ∈ m.dropWhile p, p a = false := by
  intro m
  induction m with
  | nil => simp
  | cons a m ih =>
    intro h
    by_cases ha : p a
    · rw [List.dropWhile_cons_of_pos ha] at h ⊢
      exact ih h
    · rw [List.dropWhile_cons_of_neg ha] at h ⊢
      exact ⟨a, by simp, by simpa using ha⟩

/-- A nonempty stripped string contains a non-whitespace character. -/
theorem pyStrip_has_content (l : List Char) (h : pyStrip l ≠ []) :
    ∃ c ∈ pyStrip l, isWs c = false := by
  unfold pyStrip at h ⊢
  have hinner : ((l.dropWhile isWs).reverse.dropWhile isWs) ≠ [] := by
    intro hcon
    rw [hcon] at h
    exact h rfl
  obtain ⟨a, ha, hpa⟩ := dropWhile_exists_not isWs _ hinner
  exact ⟨a, List.mem_reverse.mpr ha, hpa⟩

/-- An attempt never returns an empty or whitespace-only string. -/
theorem attemptResult_ok_content {ε : Type} (tp : Nat → Except ε (Option (List Char)))
    (i : Nat) (s : List Char) (h : attemptResult tp i = .ok s) :
    s ≠ [] ∧ ∃ c ∈ s, isWs c = false := by
  rcases htp : tp i with e | oc
  · simp only [attemptResult, htp] at h
    cases h
  · cases oc with
    | none =>
      simp only [attemptResult, htp] at h
      cases h
    | some content =>
      simp only [attemptResult, htp] at h
      by_cases hs : pyStrip content = []
      · rw [if_pos hs] at h; cases h
      · rw [if_neg hs] at h
        cases h
        exact ⟨hs, pyStrip_has_content content hs⟩

/-- Any successful loop outcome comes from a successful attempt at one of the
tried indices. -/
theorem dsLoop_ok_attempt {ε : Type} (tp : Nat → Except ε (Option (List Char))) (R : Nat) :
    ∀ (l : List Nat) (last : Option (DSError ε)) (s : List Char),
      (dsLoop R tp l last).result = some (.ok s) → ∃ i ∈ l, attemptResult tp i = .ok s := by
  intro l
  induction l with
  | nil =>
    intro last s h
    cases last with
    | none => cases h
    | some e => simp only [dsLoop, Option.map_some] at h; cases h
  | cons i rest ih =>
    intro last s h
    rcases h0 : attemptResult tp i with e | v
    · simp only [dsLoop, h0] at h
      obtain ⟨j, hj, hja⟩ := ih (some e) s h
      exact ⟨j, List.mem_cons_of_mem i hj, hja⟩
    · simp only [dsLoop, h0] at h
      cases h
      exact ⟨i, by simp, h0⟩

theorem explode_flatten (L : Nat) (hL : 0 < L) (t : List Char) :
    (explode L t).flatten = t := by
  unfold explode
  by_cases h : t.length ≤ L
  · rw [if_pos h]; simp
  · rw [if_neg h]; exact sliceBy_flatten L hL t

theorem flatten_flatten_map_explode (L : Nat) (hL : 0 < L) :
    ∀ (ts : List (List Char)), ((ts.map (explode L)).flatten).flatten = ts.flatten := by
  intro ts
  induction ts with
  | nil => simp
  | cons t ts ih =>
    simp only [List.map_cons, List.flatten_cons, List.flatten_append, ih,
      explode_flatten L hL t]

/-! The claims -/

/-- Claim C7: For every text `T` and limit `L > 0`, every chunk of
`split_into_chunks T L` has length at most `L`; for nonempty `T` with
`length T ≤ L` the result is exactly `[T]` (the empty input is governed by
the third conjunct); and splitting the empty text yields the empty list. -/
theorem claim_c7 (T : List Char) (L : Nat) (hL : 0 < L) :
    (∀ c ∈ split_into_chunks T L, c.length ≤ L)
    ∧ (T ≠ [] → T.length ≤ L → split_into_chunks T L = [T])
    ∧ split_into_chunks ([] : List Char) L = [] := by
  refine ⟨?_, ?_, by simp [split_into_chunks]⟩
  · intro c hc
    by_cases hT : T = []
    · simp [split_into_chunks, hT] at hc
    · by_cases hlen : T.length ≤ L
      · unfold split_into_chunks at hc
        rw [if_neg hT, if_pos hlen] at hc
        rcases List.mem_singleton.mp hc with rfl
        exact hlen
      · unfold split_into_chunks at hc
        rw [if_neg hT, if_neg hlen] at hc
        have hinv := chunkInv_foldl L hL (pySplit T) [] ⟨[], [], 0⟩
          (fun p hp => pySplit_tok p hp) (chunkInv_init L)
        rw [List.nil_append] at hinv
        exact finishChunks_le L (pySplit T) _ hinv c hc
  · intro hT hlen
    unfold split_into_chunks
    rw [if_neg hT, if_pos hlen]

theorem claim_c7_witness :
    (∀ c ∈ split_into_chunks ['a', 'b', ' ', 'c', 'd', 'e'] 3, c.length ≤ 3)
    ∧ split_into_chunks ['h', 'i'] 3 = [['h', 'i']]
    ∧ split_into_chunks ([] : List Char) 3 = [] := by
  refine ⟨(claim_c7 ['a', 'b', ' ', 'c', 'd', 'e'] 3 (by decide)).1, ?_,
    (claim_c7 ['a', 'b', ' ', 'c', 'd', 'e'] 3 (by decide)).2.2⟩
  exact (claim_c7 ['h', 'i'] 3 (by decide)).2.1 (by decide) (by decide)

/-- Claim C8: For every text `T` and limit `L > 0`: the token lists of the
chunks of `split_into_chunks T L`, concatenated, are exactly the tokens of
`T` with each over-length token replaced by its contiguous hard slices
(tokens that fit are reproduced verbatim, so rejoining packed tokens with
single spaces reproduces the token sequence); at the character level the
chunks' tokens concatenate to the concatenation of `T`'s tokens; and a
single token longer than `L` is sliced into `⌈len/L⌉` pieces, each of length
at most `L`, whose concatenation equals the token. -/
theorem claim_c8 (T : List Char) (L : Nat) (hL : 0 < L) :
    ((split_into_chunks T L).map pySplit).flatten = ((pySplit T).map (explode L)).flatten
    ∧ (((split_into_chunks T L).map pySplit).flatten).flatten = (pySplit T).flatten
    ∧ (∀ t : List Char, t ≠ [] → (∀ c ∈ t, isWs c = false) → L < t.length →
        split_into_chunks t L = sliceBy L t
        ∧ (sliceBy L t).length = (t.length + L - 1) / L
        ∧ (∀ p ∈ sliceBy L t, p.length ≤ L)
        ∧ (sliceBy L t).flatten = t) := by
  have hmain : ((split_into_chunks T L).map pySplit).flatten
      = ((pySplit T).map (explode L)).flatten := by
    by_cases hT : T = []
    · subst hT
      simp [split_into_chunks, pySplit, pySplitAux]
    · by_cases hlen : T.length ≤ L
      · unfold split_into_chunks
        rw [if_neg hT, if_pos hlen,
          flatten_map_explode_small L (pySplit T)
            (fun t ht => le_trans (pySplit_mem_length ht) hlen)]
        simp
      · unfold split_into_chunks
        rw [if_neg hT, if_neg hlen]
        have hinv := chunkInv_foldl L hL (pySplit T) [] ⟨[], [], 0⟩
          (fun p hp => pySplit_tok p hp) (chunkInv_init L)
        rw [List.nil_append] at hinv
        exact finishChunks_toks L (pySplit T) _ hinv
  refine ⟨hmain, ?_, ?_⟩
  · rw [hmain]
    exact flatten_flatten_map_explode L hL (pySplit T)
  · intro t ht hws hlong
    refine ⟨?_, sliceBy_count L hL t ht, sliceBy_length_le L t, sliceBy_flatten L hL t⟩
    have hlen : ¬ t.length ≤ L := by omega
    unfold split_into_chunks
    rw [if_neg ht, if_neg hlen, pySplit_token ⟨ht, hws⟩]
    show finishChunks (stepPart L ⟨[], [], 0⟩ t) = sliceBy L t
    unfold stepPart
    simp only [if_pos rfl]
    rw [if_neg (by simpa using hlen), if_pos hlong]
    unfold finishChunks
    simp

theorem claim_c8_witness :
    split_into_chunks ['a', 'b', 'c', 'd', 'e'] 2 = sliceBy 2 ['a', 'b', 'c', 'd', 'e']
    ∧ (sliceBy 2 ['a', 'b', 'c', 'd', 'e']).length = 3
    ∧ (sliceBy 2 ['a', 'b', 'c', 'd', 'e']).flatten = ['a', 'b', 'c', 'd', 'e'] := by
  have h := (claim_c8 ['a', 'b', 'c', 'd', 'e'] 2 (by decide)).2.2
    ['a', 'b', 'c', 'd', 'e'] (by decide) (by decide) (by decide)
  exact ⟨h.1, by rw [h.2.1]; decide, h.2.2.2⟩

/-- Claim C10: A nonempty whitespace-only text longer than the limit splits
into the empty sequence of chunks: `text.split()` yields no tokens, so the
packing loop emits nothing. -/
theorem claim_c10 (T : List Char) (L : Nat) (hT : T ≠ [])
    (hws : ∀ c ∈ T, isWs c = true) (hlen : L < T.length) :
    split_into_chunks T L = [] := by
  have hlen2 : ¬ T.length ≤ L := by omega
  unfold split_into_chunks
  rw [if_neg hT, if_neg hlen2, pySplit_all_ws hws]
  rfl

theorem claim_c10_witness : split_into_chunks [' ', ' ', ' '] 2 = [] :=
  claim_c10 [' ', ' ', ' '] 2 (by decide) (by decide) (by decide)

/-- Claim C5: Each `is_allowed` call first purges the user's timestamps at or
before `now - 60`; it returns `true` exactly when the remaining count is
below the limit, recording `now` in that case and recording nothing
otherwise.  Consequently, with limit 5, five calls within one second are all
admitted, a sixth within the same minute is refused, and a call 61 seconds
later is admitted again. -/
theorem claim_c5 :
    (∀ (rl : RateLimiter) (u : Nat) (now : ℚ),
      ((is_allowed rl u now).1 = true ↔
        ((rl.timestamps u).filter (fun s => now - 60 < s)).length < rl.max_per_minute)
      ∧ ((is_allowed rl u now).1 = false →
          (is_allowed rl u now).2.timestamps u
            = (rl.timestamps u).filter (fun s => now - 60 < s))
      ∧ ((is_allowed rl u now).1 = true →
          (is_allowed rl u now).2.timestamps u
            = (rl.timestamps u).filter (fun s => now - 60 < s) ++ [now]))
    ∧ resultsFor 7 ⟨5, fun _ => []⟩
        [(7, 0), (7, 0), (7, 0), (7, 0), (7, 0), (7, 30), (7, 91)]
      = [true, true, true, true, true, false, true] := by
  constructor
  · intro rl u now
    refine ⟨is_allowed_fst rl u now, ?_, ?_⟩
    · intro hfalse
      have hcond : rl.max_per_minute
          ≤ ((rl.timestamps u).filter (fun s => now - 60 < s)).length := by
        by_contra hcon
        have := (is_allowed_fst rl u now).mpr (by omega)
        rw [hfalse] at this
        cases this
      rw [is_allowed_timestamps_self, if_pos hcond]
    · intro htrue
      have hcond := (is_allowed_fst rl u now).mp htrue
      rw [is_allowed_timestamps_self, if_neg (by omega)]
  · norm_num [resultsFor, is_allowed]

theorem claim_c5_witness :
    ((is_allowed ⟨5, fun _ => []⟩ 3 100).1 = true
      ↔ (([] : List ℚ).filter (fun s => (100 : ℚ) - 60 < s)).length < 5)
    ∧ ((is_allowed ⟨5, fun _ => []⟩ 3 100).1 = true →
        (is_allowed ⟨5, fun _ => []⟩ 3 100).2.timestamps 3
          = ([] : List ℚ).filter (fun s => (100 : ℚ) - 60 < s) ++ [100]) := by
  have h := claim_c5.1 ⟨5, fun _ => []⟩ 3 100
  exact ⟨h.1, h.2.2⟩

/-- Claim C9: Rate-limiter admission is per-user noninterfering: two call
sequences containing the same `(user, time)` subsequence for user `u` yield
identical decision sequences for `u`, however the calls of other users
differ. -/
theorem claim_c9 (u : Nat) (rl : RateLimiter) (calls1 calls2 : List (Nat × ℚ))
    (h : calls1.filter (fun c => c.1 == u) = calls2.filter (fun c => c.1 == u)) :
    resultsFor u rl calls1 = resultsFor u rl calls2 := by
  rw [resultsFor_filter u calls1 rl, h, ← resultsFor_filter u calls2 rl]

theorem claim_c9_witness :
    ([((1 : Nat), (0 : ℚ)), (2, 5), (1, 10)].filter (fun c => c.1 == 1)
      = [((1 : Nat), (0 : ℚ)), (3, 3), (1, 10), (4, 7)].filter (fun c => c.1 == 1))
    ∧ resultsFor 1 ⟨5, fun _ => []⟩ [((1 : Nat), (0 : ℚ)), (2, 5), (1, 10)]
      = resultsFor 1 ⟨5, fun _ => []⟩ [((1 : Nat), (0 : ℚ)), (3, 3), (1, 10), (4, 7)] :=
  ⟨by decide, claim_c9 1 ⟨5, fun _ => []⟩ _ _ (by decide)⟩

/-- Claim C3: `call_deepseek` with the default `R = 3` makes at most 3
attempts; it sleeps `2^attempt` seconds after each failed non-final attempt
and never after the final one (the sleep list is `[2^0, ..., 2^(attempts-2)]`);
any attempt error (transport or empty-response) triggers a retry; a stub
failing twice then succeeding yields the success value on exactly the 3rd
attempt; and when all attempts fail the last error is raised. -/
theorem claim_c3 {ε : Type} (tp : Nat → Except ε (Option (List Char))) :
    (call_deepseek DEEPSEEK_RETRY_ATTEMPTS tp).attempts ≤ 3
    ∧ (call_deepseek DEEPSEEK_RETRY_ATTEMPTS tp).sleeps
        = (List.range ((call_deepseek DEEPSEEK_RETRY_ATTEMPTS tp).attempts - 1)).map
            (fun i => 2 ^ i)
    ∧ (∀ v, attemptResult tp 0 = .ok v →
        call_deepseek DEEPSEEK_RETRY_ATTEMPTS tp = ⟨some (.ok v), [], 1⟩)
    ∧ (∀ e0 v, attemptResult tp 0 = .error e0 → attemptResult tp 1 = .ok v →
        call_deepseek DEEPSEEK_RETRY_ATTEMPTS tp = ⟨some (.ok v), [1], 2⟩)
    ∧ (∀ e0 e1 v, attemptResult tp 0 = .error e0 → attemptResult tp 1 = .error e1 →
        attemptResult tp 2 = .ok v →
        call_deepseek DEEPSEEK_RETRY_ATTEMPTS tp = ⟨some (.ok v), [1, 2], 3⟩)
    ∧ (∀ e0 e1 e2, attemptResult tp 0 = .error e0 → attemptResult tp 1 = .error e1 →
        attemptResult tp 2 = .error e2 →
        call_deepseek DEEPSEEK_RETRY_ATTEMPTS tp = ⟨some (.error e2), [1, 2], 3⟩) := by
  have hrange : List.range DEEPSEEK_RETRY_ATTEMPTS = [0, 1, 2] := rfl
  have hok0 : ∀ v, attemptResult tp 0 = .ok v →
      call_deepseek DEEPSEEK_RETRY_ATTEMPTS tp = ⟨some (.ok v), [], 1⟩ := by
    intro v h0
    simp [call_deepseek, hrange, dsLoop, h0]
  have hok1 : ∀ e0 v, attemptResult tp 0 = .error e0 → attemptResult tp 1 = .ok v →
      call_deepseek DEEPSEEK_RETRY_ATTEMPTS tp = ⟨some (.ok v), [1], 2⟩ := by
    intro e0 v h0 h1
    simp [call_deepseek, hrange, dsLoop, h0, h1, DEEPSEEK_RETRY_ATTEMPTS]
  have hok2 : ∀ e0 e1 v, attemptResult tp 0 = .error e0 → attemptResult tp 1 = .error e1 →
      attemptResult tp 2 = .ok v →
      call_deepseek DEEPSEEK_RETRY_ATTEMPTS tp = ⟨some (.ok v), [1, 2], 3⟩ := by
    intro e0 e1 v h0 h1 h2
    simp [call_deepseek, hrange, dsLoop, h0, h1, h2, DEEPSEEK_RETRY_ATTEMPTS]
  have herr : ∀ e0 e1 e2, attemptResult tp 0 = .error e0 → attemptResult tp 1 = .error e1 →
      attemptResult tp 2 = .error e2 →
      call_deepseek DEEPSEEK_RETRY_ATTEMPTS tp = ⟨some (.error e2), [1, 2], 3⟩ := by
    intro e0 e1 e2 h0 h1 h2
    simp [call_deepseek, hrange, dsLoop, h0, h1, h2, DEEPSEEK_RETRY_ATTEMPTS]
  have hcases : (call_deepseek DEEPSEEK_RETRY_ATTEMPTS tp).attempts ≤ 3
      ∧ (call_deepseek DEEPSEEK_RETRY_ATTEMPTS tp).sleeps
        = (List.range ((call_deepseek DEEPSEEK_RETRY_ATTEMPTS tp).attempts - 1)).map
            (fun i => 2 ^ i) := by
    rcases h0 : attemptResult tp 0 with e0 | v0
    · rcases h1 : attemptResult tp 1 with e1 | v1
      · rcases h2 : attemptResult tp 2 with e2 | v2
        · rw [herr e0 e1 e2 h0 h1 h2]
          exact ⟨by simp, rfl⟩
        · rw [hok2 e0 e1 v2 h0 h1 h2]
          exact ⟨by simp, rfl⟩
      · rw [hok1 e0 v1 h0 h1]
        exact ⟨by simp, rfl⟩
    · rw [hok0 v0 h0]
      exact ⟨by simp, rfl⟩
  exact ⟨hcases.1, hcases.2, hok0, hok1, hok2, herr⟩

theorem claim_c3_witness :
    call_deepseek DEEPSEEK_RETRY_ATTEMPTS
        (fun i => if i < 2 then Except.error i else Except.ok (some ['v']))
      = ⟨some (Except.ok ['v']), [1, 2], 3⟩
    ∧ call_deepseek DEEPSEEK_RETRY_ATTEMPTS
        (fun i => (Except.error i : Except Nat (Option (List Char))))
      = ⟨some (Except.error (DSError.transport 2)), [1, 2], 3⟩ := by
  constructor
  · exact (claim_c3 (fun i => if i < 2 then Except.error i else Except.ok (some ['v']))).2.2.2.2.1
      (DSError.transport 0) (DSError.transport 1) ['v'] (by decide) (by decide) (by decide)
  · exact (claim_c3 (fun i => (Except.error i : Except Nat (Option (List Char))))).2.2.2.2.2
      (DSError.transport 0) (DSError.transport 1) (DSError.transport 2)
      (by decide) (by decide) (by decide)

/-- Claim C4: A transport success carrying an absent, empty or whitespace-only
body makes the attempt fail with the empty-response validation error; hence
any string returned by a successful `call_deepseek` is nonempty and contains
a non-whitespace character. -/
theorem claim_c4 {ε : Type} (tp : Nat → Except ε (Option (List Char))) :
    (∀ i, tp i = .ok none → attemptResult tp i = .error .emptyResponse)
    ∧ (∀ i content, tp i = .ok (some content) → pyStrip content = [] →
        attemptResult tp i = .error .emptyResponse)
    ∧ (∀ s sl n, call_deepseek DEEPSEEK_RETRY_ATTEMPTS tp = ⟨some (.ok s), sl, n⟩ →
        s ≠ [] ∧ ∃ c ∈ s, isWs c = false) := by
  refine ⟨?_, ?_, ?_⟩
  · intro i h
    simp [attemptResult, h]
  · intro i content h hs
    simp [attemptResult, h, hs]
  · intro s sl n h
    have hres : (call_deepseek DEEPSEEK_RETRY_ATTEMPTS tp).result = some (.ok s) := by
      rw [h]
    obtain ⟨i, _, hi⟩ := dsLoop_ok_attempt tp DEEPSEEK_RETRY_ATTEMPTS _ none s hres
    exact attemptResult_ok_content tp i s hi

theorem claim_c4_witness :
    attemptResult (fun _ => (Except.ok none : Except Unit (Option (List Char)))) 0
      = Except.error DSError.emptyResponse
    ∧ attemptResult (fun _ => (Except.ok (some [' ', ' ']) : Except Unit (Option (List Char)))) 0
      = Except.error DSError.emptyResponse
    ∧ ((['a'] : List Char) ≠ [] ∧ ∃ c ∈ (['a'] : List Char), isWs c = false) := by
  refine ⟨(claim_c4 (fun _ => (Except.ok none : Except Unit (Option (List Char))))).1 0 rfl,
    (claim_c4 (fun _ => (Except.ok (some [' ', ' ']) : Except Unit (Option (List Char))))).2.1
      0 [' ', ' '] rfl (by decide), ?_⟩
  exact (claim_c4 (fun _ => (Except.ok (some [' ', 'a']) : Except Unit (Option (List Char))))).2.2
    ['a'] [] 1 (by decide)

/-- Claim C2: After the completion client fails (retry exhaustion), the session
is recoverable: a first-time generation failure returns to `MainMenu` with
the session untouched, and a refinement failure stays at `PromptShown` with
the stored `last_prompt` unchanged. -/
theorem claim_c2 {ε : Type} (uid : Nat) (now : ℚ) (rl : RateLimiter) (sess : Session)
    (msg : List Char) (e : ε) (cat : Category) (lp : List Char)
    (hmsg : pyStrip msg ≠ [])
    (hadm : (is_allowed rl uid now).1 = true) :
    (sess.category = some cat →
      handle_description uid now rl sess (some msg) (Except.error e)
        = (ConversationState.mainMenu, sess, (is_allowed rl uid now).2))
    ∧ (sess.last_prompt = some lp → lp ≠ [] →
      (handle_refinement uid now rl sess (some msg) (Except.error e)).1
          = ConversationState.promptShown
        ∧ (handle_refinement uid now rl sess (some msg) (Except.error e)).2.1.last_prompt
          = some lp) := by
  have hnotfalse : ¬((is_allowed rl uid now).1 = false) := by
    rw [hadm]; simp
  constructor
  · intro hcat
    simp only [handle_description, hcat, Option.getD_some]
    rw [if_neg hmsg, if_neg hnotfalse]
  · intro hlp hlpne
    simp only [handle_refinement, hlp, Option.getD_some]
    rw [if_neg hlpne, if_neg hmsg, if_neg hnotfalse]
    exact ⟨rfl, hlp⟩

theorem claim_c2_witness :
    handle_description 4 0 ⟨5, fun _ => []⟩
        ⟨some Category.video, some ['p'], none, none, []⟩
        (some ['w']) (Except.error () : Except Unit (List Char))
      = (ConversationState.mainMenu, ⟨some Category.video, some ['p'], none, none, []⟩,
         (is_allowed ⟨5, fun _ => []⟩ 4 0).2)
    ∧ (handle_refinement 4 0 ⟨5, fun _ => []⟩
        ⟨some Category.video, some ['p'], none, none, []⟩
        (some ['w']) (Except.error () : Except Unit (List Char))).1
      = ConversationState.promptShown
    ∧ (handle_refinement 4 0 ⟨5, fun _ => []⟩
        ⟨some Category.video, some ['p'], none, none, []⟩
        (some ['w']) (Except.error () : Except Unit (List Char))).2.1.last_prompt
      = some ['p'] := by
  have h := claim_c2 4 0 ⟨5, fun _ => []⟩ ⟨some Category.video, some ['p'], none, none, []⟩
    ['w'] () Category.video ['p'] (by decide) (by simp [is_allowed])
  exact ⟨h.1 rfl, (h.2 rfl (by decide)).1, (h.2 rfl (by decide)).2⟩

/-- Claim C1, counterexample: A successful refinement call consumes the
completion client's result (the state is `PromptShown` and `last_prompt` was
updated) yet appends no `HistoryEntry`: the history stays empty, refuting
the claim that every successful completion-client transition appends to the
history. -/
theorem claim_c1_counterexample :
    (handle_refinement 1 0 ⟨5, fun _ => []⟩
        ⟨some Category.code, some ['p'], some Category.code, some ['d'], []⟩
        (some ['x']) (Except.ok ['q'] : Except Unit (List Char))).1
      = ConversationState.promptShown
    ∧ (handle_refinement 1 0 ⟨5, fun _ => []⟩
        ⟨some Category.code, some ['p'], some Category.code, some ['d'], []⟩
        (some ['x']) (Except.ok ['q'] : Except Unit (List Char))).2.1.last_prompt
      = some ['q']
    ∧ (handle_refinement 1 0 ⟨5, fun _ => []⟩
        ⟨some Category.code, some ['p'], some Category.code, some ['d'], []⟩
        (some ['x']) (Except.ok ['q'] : Except Unit (List Char))).2.1.history
      = [] := by
  refine ⟨?_, ?_, ?_⟩ <;> simp [handle_refinement, is_allowed, pyStrip, isWs]

/-- Claim C1, amended: On success the initial-generation transition
(`handle_description`) appends a `HistoryEntry` and prunes the history to
the last 5; the refinement transition (`handle_refinement`) updates
`last_prompt` but leaves the history unchanged (it appends nothing). -/
theorem claim_c1_amended {ε : Type} (uid : Nat) (now : ℚ) (rl : RateLimiter)
    (sess : Session) (msg r : List Char) (cat : Category) (lp : List Char)
    (hmsg : pyStrip msg ≠ [])
    (hadm : (is_allowed rl uid now).1 = true) :
    (sess.category = some cat →
      (handle_description uid now rl sess (some msg)
          (Except.ok r : Except ε (List Char))).2.1.history
        = lastN HISTORY_MAX_ITEMS (sess.history ++ [mkHistoryEntry cat r]))
    ∧ (sess.last_prompt = some lp → lp ≠ [] →
      (handle_refinement uid now rl sess (some msg)
          (Except.ok r : Except ε (List Char))).2.1.history = sess.history
        ∧ (handle_refinement uid now rl sess (some msg)
            (Except.ok r : Except ε (List Char))).2.1.last_prompt = some r) := by
  have hnotfalse : ¬((is_allowed rl uid now).1 = false) := by
    rw [hadm]; simp
  constructor
  · intro hcat
    simp only [handle_description, hcat, Option.getD_some]
    rw [if_neg hmsg, if_neg hnotfalse]
  · intro hlp hlpne
    simp only [handle_refinement, hlp, Option.getD_some]
    rw [if_neg hlpne, if_neg hmsg, if_neg hnotfalse]
    exact ⟨rfl, rfl⟩

theorem claim_c1_witness :
    (handle_description 2 0 ⟨5, fun _ => []⟩
        ⟨some Category.image, some ['p'], none, none, []⟩
        (some ['y']) (Except.ok ['z'] : Except Unit (List Char))).2.1.history
      = lastN HISTORY_MAX_ITEMS ([] ++ [mkHistoryEntry Category.image ['z']])
    ∧ (handle_refinement 2 0 ⟨5, fun _ => []⟩
        ⟨some Category.image, some ['p'], none, none, []⟩
        (some ['y']) (Except.ok ['z'] : Except Unit (List Char))).2.1.history = [] := by
  exact ⟨(claim_c1_amended 2 0 ⟨5, fun _ => []⟩
      ⟨some Category.image, some ['p'], none, none, []⟩ ['y'] ['z'] Category.image ['p']
      (by decide) (by simp [is_allowed])).1 rfl,
    ((claim_c1_amended 2 0 ⟨5, fun _ => []⟩
      ⟨some Category.image, some ['p'], none, none, []⟩ ['y'] ['z'] Category.image ['p']
      (by decide) (by simp [is_allowed])).2 rfl (by decide)).1⟩

/-- Claim C6: Each successful generation stores `lastN 5 (history ++ [entry])`
(at most 5 entries, oldest evicted first, insertion order preserved); six
successful generations starting from an empty history leave exactly the last
five entries in order; and an entry's text is the result truncated to 200
characters, with the ellipsis marker appended exactly when the result
exceeds 200 characters. -/
theorem claim_c6 (cat : Category) (r1 r2 r3 r4 r5 r6 : List Char) :
    (∀ {ε : Type} (uid : Nat) (now : ℚ) (rl : RateLimiter) (sess : Session)
        (msg r : List Char),
      sess.category = some cat → pyStrip msg ≠ [] → (is_allowed rl uid now).1 = true →
      (handle_description uid now rl sess (some msg)
          (Except.ok r : Except ε (List Char))).2.1.history
          = lastN HISTORY_MAX_ITEMS (sess.history ++ [mkHistoryEntry cat r])
        ∧ (handle_description uid now rl sess (some msg)
            (Except.ok r : Except ε (List Char))).2.1.history.length ≤ 5)
    ∧ (runGenerations 7 ⟨some cat, none, none, none, []⟩ [r1, r2, r3, r4, r5, r6]).history
        = [mkHistoryEntry cat r2, mkHistoryEntry cat r3, mkHistoryEntry cat r4,
           mkHistoryEntry cat r5, mkHistoryEntry cat r6]
    ∧ (∀ r : List Char,
        (200 < r.length → mkHistoryEntry cat r = ⟨cat, r.take 200 ++ ['…']⟩)
        ∧ (r.length ≤ 200 → mkHistoryEntry cat r = ⟨cat, r⟩)) := by
  refine ⟨?_, ?_, ?_⟩
  · intro ε uid now rl sess msg r hcat hmsg hadm
    have hnotfalse : ¬((is_allowed rl uid now).1 = false) := by
      rw [hadm]; simp
    have hhist : (handle_description uid now rl sess (some msg)
        (Except.ok r : Except ε (List Char))).2.1.history
        = lastN HISTORY_MAX_ITEMS (sess.history ++ [mkHistoryEntry cat r]) := by
      simp only [handle_description, hcat, Option.getD_some]
      rw [if_neg hmsg, if_neg hnotfalse]
    refine ⟨hhist, ?_⟩
    rw [hhist]
    simp only [lastN, HISTORY_MAX_ITEMS, List.length_drop]
    omega
  · have hstrip : pyStrip ['d'] = ['d'] := by decide
    norm_num [runGenerations, handle_description, is_allowed, hstrip, lastN,
      HISTORY_MAX_ITEMS, RATE_LIMIT_REQUESTS_PER_MINUTE]
  · intro r
    constructor
    · intro hlong
      simp [mkHistoryEntry, hlong]
    · intro hshort
      simp only [mkHistoryEntry, Nat.not_lt.mpr hshort, if_neg, if_false, List.append_nil]
      rw [List.take_of_length_le hshort]

theorem claim_c6_witness :
    (handle_description 7 0 ⟨5, fun _ => []⟩ ⟨some Category.code, none, none, none, []⟩
        (some ['d']) (Except.ok ['x'] : Except Unit (List Char))).2.1.history
      = lastN HISTORY_MAX_ITEMS ([] ++ [mkHistoryEntry Category.code ['x']])
    ∧ (200 < (List.replicate 201 'a').length →
        mkHistoryEntry Category.code (List.replicate 201 'a')
          = ⟨Category.code, (List.replicate 201 'a').take 200 ++ ['…']⟩) := by
  refine ⟨?_, ?_⟩
  · exact ((claim_c6 Category.code [] [] [] [] [] []).1 7 0 ⟨5, fun _ => []⟩
      ⟨some Category.code, none, none, none, []⟩ ['d'] ['x'] rfl (by decide)
      (by simp [is_allowed])).1
  · exact ((claim_c6 Category.code [] [] [] [] [] []).2.2 (List.replicate 201 'a')).1

end Promtme
